import Mathlib

/-
Shallow embedding of the rust-ecs core crate.

Source layout (Rust):
  src/core/src/entity.rs                   : Entity (u64 newtype, 0 = none sentinel)
  src/core/src/error.rs                    : EcsError, FindEntityLocation
  src/core/src/entity_tree.rs              : EntityTree, EntityTreeIterator
  src/core/src/entity_component_manager.rs : EntityComponentManager

Modelling decisions:
  - BTreeMap<Entity, V> and HashMap<K, V> are modelled as functions K -> Option V
    (insert = pointwise update, remove = pointwise erase, get = application).
    No claim depends on the iteration order of the maps themselves.
  - Methods taking &mut self and returning Result<(), E> are modelled as
    functions returning the new state paired with Except E Unit.
  - u64 arithmetic is Nat with an explicit % 2 ^ 64 where the source increments.
  - Box<dyn Any> is modelled as a pair of a TypeId code and an encoded value
    (DynBox); a Rust type is modelled as its type_name string plus its TypeId
    code (RType).  Distinct Rust types always have distinct TypeId codes,
    while type_name strings are not formally guaranteed unique.
  - The divergence and panics of the iterator are made explicit: the sibling
    back-tracking loop takes a fuel argument (the Rust loop diverges on cyclic
    parent chains; a terminating Rust run visits pairwise distinct keys of the
    parent map, so any sufficiently large fuel computes the same result), and
    each panic site is a distinct IterPanic constructor.
-/

/-- Entity(pub u64); the value 0 is the reserved none sentinel. -/
structure Entity where
  id : Nat
deriving DecidableEq

/-- Entity::none() -/
def Entity.none : Entity := ⟨0⟩

/-- Entity::is_none(): self.0 == Self::none().0 -/
def Entity.is_none (e : Entity) : Bool := e.id == 0

/-- Entity::is_some(): !self.is_none() -/
def Entity.is_some (e : Entity) : Bool := !e.is_none

/-- FindEntityLocation from error.rs. -/
inductive FindEntityLocation where
  | EntityTree
  | ComponentManager
deriving DecidableEq

/-- EcsError from error.rs. -/
inductive EcsError where
  | EntityNotFound (e : Entity) (loc : FindEntityLocation)
  | NoRootEntity
deriving DecidableEq

/-- Functional model of map insertion (BTreeMap::insert / HashMap::insert). -/
def fmInsert {κ α : Type} [DecidableEq κ] (m : κ → Option α) (k : κ) (v : α) :
    κ → Option α :=
  fun x => if x = k then some v else m x

/-- Functional model of map removal (BTreeMap::remove / HashMap::remove). -/
def fmErase {κ α : Type} [DecidableEq κ] (m : κ → Option α) (k : κ) :
    κ → Option α :=
  fun x => if x = k then none else m x

/-- EntityTree: root, children map, parent map. -/
structure EntityTree where
  root : Option Entity
  children : Entity → Option (List Entity)
  parent : Entity → Option (Option Entity)

/-- EntityTree::default() -/
def EntityTree.default : EntityTree :=
  { root := none, children := fun _ => none, parent := fun _ => none }

/-- EntityTree::insert_node -/
def EntityTree.insert_node (t : EntityTree) (entity : Entity) : EntityTree :=
  { t with children := fmInsert t.children entity [],
           parent := fmInsert t.parent entity none }

/-- EntityTree::set_root -/
def EntityTree.set_root (t : EntityTree) (entity : Entity) : EntityTree :=
  { t with root := some entity }

/-- EntityTree::new -/
def EntityTree.new (root_entity : Entity) : EntityTree :=
  if root_entity.is_some then
    (EntityTree.default.insert_node root_entity).set_root root_entity
  else
    EntityTree.default

/-- EntityTree::add_child.  The source ends the successful path with
    p.push(child); parent.insert(child, Some(parent)); children.insert(child, Vec::new()).
    The source retries an unknown parent recursively against the root; that
    recursive call cannot recurse again (its parent argument equals the root),
    so the single level of recursion is inlined in the none branch below. -/
def EntityTree.add_child (t : EntityTree) (parent child : Entity) :
    EntityTree × Except EcsError Unit :=
  if parent.is_none && t.root.isNone then
    (t, .error .NoRootEntity)
  else
    match t.children parent with
    | some p =>
      ({ t with children := fmInsert (fmInsert t.children parent (p ++ [child])) child [],
                parent := fmInsert t.parent child (some parent) },
       .ok ())
    | none =>
      match t.root with
      | some r =>
        if parent = r then
          (t, .error (.EntityNotFound parent .EntityTree))
        else
          match t.children r with
          | some p =>
            ({ t with children := fmInsert (fmInsert t.children r (p ++ [child])) child [],
                      parent := fmInsert t.parent child (some r) },
             .ok ())
          | none => (t, .error (.EntityNotFound r .EntityTree))
      | none => (t, .error (.EntityNotFound parent .EntityTree))

/-- EntityTree::get_children -/
def EntityTree.get_children (t : EntityTree) (entity : Entity) :
    Except EcsError (List Entity) :=
  match t.children entity with
  | some cs => .ok cs
  | none => .error (.EntityNotFound entity .EntityTree)

/-- EntityTree::get_parent: self.parent.get(&entity).and_then(|p| p.as_ref()).ok_or(...) -/
def EntityTree.get_parent (t : EntityTree) (entity : Entity) :
    Except EcsError Entity :=
  match (t.parent entity).bind (fun p => p) with
  | some p => .ok p
  | none => .error (.EntityNotFound entity .EntityTree)

/-- EntityTree::remove -/
def EntityTree.remove (t : EntityTree) (entity : Entity) : EntityTree :=
  { t with children := fmErase t.children entity,
           parent := fmErase t.parent entity }

/-- Panic / divergence sites of EntityTreeIterator::next, one constructor per
    site: the explicit panic! when the current entity has no children entry,
    the two indexing panics (parent[..], children[..]), the .position().unwrap()
    panic, and exhaustion of the loop fuel (divergence of the Rust loop). -/
inductive IterPanic where
  | currentMissing (e : Entity)
  | parentMissing (e : Entity)
  | childrenMissing (e : Entity)
  | siblingMissing (e : Entity)
  | loopFuel
deriving DecidableEq

/-- siblings.iter().position(|s| *s == iter_node) -/
def position (l : List Entity) (x : Entity) : Option Nat :=
  match l with
  | [] => none
  | y :: rest => if y = x then some 0 else (position rest x).map (· + 1)

/-- The sibling back-tracking loop of EntityTreeIterator::next:
    while let Some(parent) = tree.parent[&iter_node] { .. } with the two map
    indexings and the unwrap modelled as IterPanic results, and fuel standing
    in for the (potentially diverging) unbounded loop. -/
def backtrack (t : EntityTree) : Nat → Entity → Except IterPanic (Option Entity)
  | 0, _ => .error .loopFuel
  | n + 1, iter_node =>
    match t.parent iter_node with
    | none => .error (.parentMissing iter_node)
    | some none => .ok none
    | some (some par) =>
      match t.children par with
      | none => .error (.childrenMissing par)
      | some siblings =>
        match position siblings iter_node with
        | none => .error (.siblingMissing iter_node)
        | some i =>
          if h : i + 1 < siblings.length then
            .ok (some (siblings.get ⟨i + 1, h⟩))
          else
            backtrack t n par

/-- EntityTreeIterator state: the borrowed tree plus the current cursor. -/
structure EntityTreeIterator where
  tree : EntityTree
  current : Option Entity

/-- EntityTreeIterator::next.  bf is the fuel handed to the back-tracking loop. -/
def EntityTreeIterator.next (bf : Nat) (it : EntityTreeIterator) :
    Except IterPanic (Option Entity × EntityTreeIterator) :=
  match it.current with
  | some current =>
    match it.tree.children current with
    | none => .error (.currentMissing current)
    | some cs =>
      match cs with
      | c :: _ => .ok (some c, { it with current := some c })
      | [] =>
        match backtrack it.tree bf current with
        | .ok (some s) => .ok (some s, { it with current := some s })
        | .ok none => .ok (none, it)
        | .error p => .error p
  | none => .ok (it.tree.root, { it with current := it.tree.root })

/-- Collect the elements produced by the iterator until it yields None; n is
    fuel bounding the number of next() calls, bf the loop fuel of each call.
    Returns none when the fuel runs out or a call panics. -/
def iterToList (n bf : Nat) (it : EntityTreeIterator) : Option (List Entity) :=
  match n with
  | 0 => none
  | n + 1 =>
    match it.next bf with
    | .ok (some e, it1) => (iterToList n bf it1).map (e :: ·)
    | .ok (none, _) => some []
    | .error _ => none

/-- A Rust component type, reduced to the attributes the store uses:
    its type_name string (the store key) and its TypeId code (the downcast tag). -/
structure RType where
  name : String
  tyid : Nat
deriving DecidableEq

/-- A Box<dyn Any>: the TypeId code of the stored value plus the value,
    encoded as a natural number. -/
structure DynBox where
  ty : Nat
  val : Nat
deriving DecidableEq

/-- EntityComponentManager: component store, internal tree, id counter. -/
structure EntityComponentManager where
  component_store : Entity × String → Option DynBox
  entites : EntityTree
  entity_counter : Entity

/-- EntityComponentManager::default() -/
def EntityComponentManager.default : EntityComponentManager :=
  { component_store := fun _ => none,
    entites := EntityTree.default,
    entity_counter := ⟨0⟩ }

/-- EntityComponentManager::create_entity: counter.0 += 1 (u64 arithmetic),
    insert_node(counter), return counter. -/
def EntityComponentManager.create_entity (m : EntityComponentManager) :
    Entity × EntityComponentManager :=
  let c : Entity := ⟨(m.entity_counter.id + 1) % 2 ^ 64⟩
  (c, { m with entity_counter := c, entites := m.entites.insert_node c })

/-- EntityComponentManager::delete_entity: tree removal plus
    component_store.retain(|(e, _), _| *e != entity). -/
def EntityComponentManager.delete_entity (m : EntityComponentManager)
    (entity : Entity) : EntityComponentManager :=
  { m with entites := m.entites.remove entity,
           component_store := fun k => if k.1 = entity then none else m.component_store k }

/-- EntityComponentManager::insert_component::<T>(entity, component): store the
    boxed value under the key (entity, type_name::<T>()). -/
def EntityComponentManager.insert_component (m : EntityComponentManager)
    (ty : RType) (entity : Entity) (v : Nat) : EntityComponentManager :=
  { m with component_store :=
      fmInsert m.component_store (entity, ty.name) ⟨ty.tyid, v⟩ }

/-- EntityComponentManager::get_component::<T>(entity): look up the key
    (entity, type_name::<T>()) and downcast_ref::<T> the boxed value. -/
def EntityComponentManager.get_component (m : EntityComponentManager)
    (ty : RType) (entity : Entity) : Option Nat :=
  (m.component_store (entity, ty.name)).bind
    (fun b => if b.ty = ty.tyid then some b.val else none)

/-- Iterated create_entity, collecting the ids in call order. -/
def createN : Nat → EntityComponentManager → EntityComponentManager × List Entity
  | 0, m => (m, [])
  | n + 1, m =>
    let p := m.create_entity
    let q := createN n p.2
    (q.1, p.1 :: q.2)

/-- Key-set invariant of the tree: an entity has a children entry exactly
    when it has a parent entry. -/
def TreeInv (t : EntityTree) : Prop :=
  ∀ e, (t.children e).isSome = true ↔ (t.parent e).isSome = true

/-- C10: whenever add_child returns an error, the tree (root, children
    mapping and parent mapping) is unchanged. -/
theorem add_child_error_leaves_tree_unchanged (t : EntityTree) (p c : Entity)
    (err : EcsError) (h : (t.add_child p c).2 = .error err) :
    (t.add_child p c).1 = t := by
  revert h
  unfold EntityTree.add_child
  split
  · intro _; rfl
  · split
    · intro h; exact Except.noConfusion h
    · split
      · split
        · intro _; rfl
        · split
          · intro h; exact Except.noConfusion h
          · intro _; rfl
      · intro _; rfl

/-- C10 witness: on the default tree, attaching to the none sentinel fails
    with NoRootEntity and leaves the tree unchanged. -/
theorem add_child_error_leaves_tree_unchanged_witness :
    (EntityTree.default.add_child ⟨0⟩ ⟨1⟩).1 = EntityTree.default :=
  add_child_error_leaves_tree_unchanged EntityTree.default ⟨0⟩ ⟨1⟩
    .NoRootEntity rfl

/-- C3: behaviour of add_child when the parent has no children entry:
    NoRootEntity for the none sentinel without a root, EntityNotFound without
    a root or when the parent is the root itself, and otherwise the call is
    retried against the root. -/
theorem add_child_unknown_parent_cases (t : EntityTree) (p c : Entity)
    (hp : t.children p = none) :
    (t.root = none → p.is_none = true → t.add_child p c = (t, .error .NoRootEntity)) ∧
    (t.root = none → p.is_none = false →
      t.add_child p c = (t, .error (.EntityNotFound p .EntityTree))) ∧
    (∀ r, t.root = some r → p = r →
      t.add_child p c = (t, .error (.EntityNotFound p .EntityTree))) ∧
    (∀ r, t.root = some r → p ≠ r → t.add_child p c = t.add_child r c) := by
  refine ⟨?_, ?_, ?_, ?_⟩
  · intro hr hn
    simp [EntityTree.add_child, hn, hr, hp]
  · intro hr hn
    simp [EntityTree.add_child, hn, hr, hp]
  · intro r hr hpr
    subst hpr
    simp [EntityTree.add_child, hr, hp]
  · intro r hr hpr
    cases hcr : t.children r with
    | some l => simp [EntityTree.add_child, hr, hp, hcr, hpr]
    | none => simp [EntityTree.add_child, hr, hp, hcr, hpr]

/-- C3 witness: concrete instances of all four cases. -/
theorem add_child_unknown_parent_cases_witness :
    (EntityTree.default.add_child ⟨0⟩ ⟨1⟩ = (EntityTree.default, .error .NoRootEntity)) ∧
    (EntityTree.default.add_child ⟨7⟩ ⟨1⟩ =
      (EntityTree.default, .error (.EntityNotFound ⟨7⟩ .EntityTree))) ∧
    ((EntityTree.default.set_root ⟨3⟩).add_child ⟨3⟩ ⟨1⟩ =
      (EntityTree.default.set_root ⟨3⟩, .error (.EntityNotFound ⟨3⟩ .EntityTree))) ∧
    ((EntityTree.new ⟨1⟩).add_child ⟨9⟩ ⟨2⟩ = (EntityTree.new ⟨1⟩).add_child ⟨1⟩ ⟨2⟩) := by
  refine ⟨?_, ?_, ?_, ?_⟩
  · exact (add_child_unknown_parent_cases EntityTree.default ⟨0⟩ ⟨1⟩ rfl).1 rfl rfl
  · exact (add_child_unknown_parent_cases EntityTree.default ⟨7⟩ ⟨1⟩ rfl).2.1 rfl rfl
  · exact (add_child_unknown_parent_cases (EntityTree.default.set_root ⟨3⟩) ⟨3⟩ ⟨1⟩
      rfl).2.2.1 ⟨3⟩ rfl rfl
  · exact (add_child_unknown_parent_cases (EntityTree.new ⟨1⟩) ⟨9⟩ ⟨2⟩
      rfl).2.2.2 ⟨1⟩ rfl (by decide)

/-- C8: get_children and get_parent both fail with EntityNotFound on an entity
    absent from both maps; on a root that was inserted as a node and never
    given a parent, get_parent fails while get_children succeeds. -/
theorem get_children_get_parent_spec :
    (∀ (t : EntityTree) (e : Entity), t.children e = none → t.parent e = none →
      t.get_children e = .error (.EntityNotFound e .EntityTree) ∧
      t.get_parent e = .error (.EntityNotFound e .EntityTree)) ∧
    (∀ (t : EntityTree) (r : Entity) (l : List Entity), t.root = some r →
      t.children r = some l → t.parent r = some none →
      t.get_parent r = .error (.EntityNotFound r .EntityTree) ∧
      t.get_children r = .ok l) := by
  constructor
  · intro t e hc hp
    constructor
    · simp [EntityTree.get_children, hc]
    · simp [EntityTree.get_parent, hp]
  · intro t r l _ hc hp
    constructor
    · simp [EntityTree.get_parent, hp]
    · simp [EntityTree.get_children, hc]

/-- C8 witness: the tree with root 1 and a single node 1. -/
theorem get_children_get_parent_spec_witness :
    ((EntityTree.new ⟨1⟩).get_children ⟨2⟩ = .error (.EntityNotFound ⟨2⟩ .EntityTree) ∧
      (EntityTree.new ⟨1⟩).get_parent ⟨2⟩ = .error (.EntityNotFound ⟨2⟩ .EntityTree)) ∧
    ((EntityTree.new ⟨1⟩).get_parent ⟨1⟩ = .error (.EntityNotFound ⟨1⟩ .EntityTree) ∧
      (EntityTree.new ⟨1⟩).get_children ⟨1⟩ = .ok []) :=
  ⟨get_children_get_parent_spec.1 (EntityTree.new ⟨1⟩) ⟨2⟩ rfl rfl,
   get_children_get_parent_spec.2 (EntityTree.new ⟨1⟩) ⟨1⟩ [] rfl rfl rfl⟩

/-- C5: inserting a component of type T for e and retrieving T for e returns
    the inserted value (overwriting any prior T value); retrieving a different
    type U that was not separately inserted for e returns empty. -/
theorem insert_component_get_component (m : EntityComponentManager) (e : Entity)
    (T U : RType) (v : Nat) (hUT : U ≠ T)
    (hU : m.get_component U e = none) :
    (m.insert_component T e v).get_component T e = some v ∧
    (m.insert_component T e v).get_component U e = none := by
  constructor
  · simp [EntityComponentManager.insert_component, EntityComponentManager.get_component,
      fmInsert]
  · by_cases hn : U.name = T.name
    · have hid : T.tyid ≠ U.tyid := by
        intro hid
        exact hUT (by cases U; cases T; simp_all)
      simp [EntityComponentManager.insert_component, EntityComponentManager.get_component,
        fmInsert, hn, hid]
    · simpa [EntityComponentManager.insert_component, EntityComponentManager.get_component,
        fmInsert, hn] using hU

/-- C5 witness: i32 and f32 components on the default manager. -/
theorem insert_component_get_component_witness :
    (EntityComponentManager.default.insert_component ⟨"i32", 1⟩ ⟨1⟩ 41).get_component
      ⟨"i32", 1⟩ ⟨1⟩ = some 41 ∧
    (EntityComponentManager.default.insert_component ⟨"i32", 1⟩ ⟨1⟩ 41).get_component
      ⟨"f32", 2⟩ ⟨1⟩ = none :=
  insert_component_get_component EntityComponentManager.default ⟨1⟩
    ⟨"i32", 1⟩ ⟨"f32", 2⟩ 41 (by decide) rfl

/-- C7: the key-set invariant (children entry iff parent entry) holds for the
    default tree and trees built by new, and is preserved by insert_node,
    set_root, add_child (successful or failing) and remove. -/
theorem tree_maps_key_invariant :
    TreeInv EntityTree.default ∧
    (∀ e, TreeInv (EntityTree.new e)) ∧
    (∀ t e, TreeInv t → TreeInv (t.insert_node e)) ∧
    (∀ t e, TreeInv t → TreeInv (t.set_root e)) ∧
    (∀ t p c, TreeInv t → TreeInv (t.add_child p c).1) ∧
    (∀ t e, TreeInv t → TreeInv (t.remove e)) := by
  have hdef : TreeInv EntityTree.default := by
    intro e; simp [EntityTree.default]
  have hins : ∀ t e, TreeInv t → TreeInv (t.insert_node e) := by
    intro t e h x
    by_cases hx : x = e <;> simp [EntityTree.insert_node, fmInsert, hx, h x]
  have hroot : ∀ t e, TreeInv t → TreeInv (t.set_root e) := by
    intro t e h; exact h
  have hnew : ∀ e, TreeInv (EntityTree.new e) := by
    intro e
    unfold EntityTree.new
    split
    · exact hroot _ _ (hins _ _ hdef)
    · exact hdef
  have hadd : ∀ t p c, TreeInv t → TreeInv (t.add_child p c).1 := by
    intro t p c h
    unfold EntityTree.add_child
    split
    · exact h
    · split
      · next l heq =>
        intro x
        by_cases hxc : x = c
        · simp [fmInsert, hxc]
        · by_cases hxp : x = p
          · subst hxp
            have hp2 : (t.parent x).isSome = true := (h x).mp (by simp [heq])
            simp [fmInsert, hxc, hp2]
          · simp [fmInsert, hxc, hxp, h x]
      · split
        · next r hr =>
          split
          · exact h
          · split
            · next l heq =>
              intro x
              by_cases hxc : x = c
              · simp [fmInsert, hxc]
              · by_cases hxr : x = r
                · subst hxr
                  have hp2 : (t.parent x).isSome = true := (h x).mp (by simp [heq])
                  simp [fmInsert, hxc, hp2]
                · simp [fmInsert, hxc, hxr, h x]
            · exact h
        · exact h
  have hrem : ∀ t e, TreeInv t → TreeInv (t.remove e) := by
    intro t e h x
    by_cases hx : x = e <;> simp [EntityTree.remove, fmErase, hx, h x]
  exact ⟨hdef, hnew, hins, hroot, hadd, hrem⟩

/-- C7 witness: the invariant after building a small tree through the
    operations, starting from new. -/
theorem tree_maps_key_invariant_witness :
    TreeInv ((EntityTree.new ⟨1⟩).add_child ⟨1⟩ ⟨2⟩).1 :=
  tree_maps_key_invariant.2.2.2.2.1 (EntityTree.new ⟨1⟩) ⟨1⟩ ⟨2⟩
    (tree_maps_key_invariant.2.1 ⟨1⟩)

/-- C1 (amended): if the parent has a children entry, and it is not the case
    that the parent is the none sentinel while no root is set, add_child
    succeeds, the parent entry of the child is set to the parent, and the
    children entry of the child is reset to a fresh empty sequence,
    discarding any previous entry; and when parent and child differ, the
    child is afterwards the last element of the children of the parent. -/
theorem add_child_known_parent (t : EntityTree) (p c : Entity) (l : List Entity)
    (hp : t.children p = some l)
    (hg : (p.is_none && t.root.isNone) = false) :
    (t.add_child p c).2 = .ok () ∧
    (t.add_child p c).1.parent c = some (some p) ∧
    (t.add_child p c).1.children c = some [] ∧
    (p ≠ c → (t.add_child p c).1.children p = some (l ++ [c])) := by
  refine ⟨?_, ?_, ?_, ?_⟩
  · simp [EntityTree.add_child, hg, hp]
  · simp [EntityTree.add_child, hg, hp, fmInsert]
  · simp [EntityTree.add_child, hg, hp, fmInsert]
  · intro hpc
    simp [EntityTree.add_child, hg, hp, fmInsert, hpc]

/-- C1 witness: attaching 2 under the root 1. -/
theorem add_child_known_parent_witness :
    ((EntityTree.new ⟨1⟩).add_child ⟨1⟩ ⟨2⟩).2 = .ok () ∧
    ((EntityTree.new ⟨1⟩).add_child ⟨1⟩ ⟨2⟩).1.parent ⟨2⟩ = some (some ⟨1⟩) ∧
    ((EntityTree.new ⟨1⟩).add_child ⟨1⟩ ⟨2⟩).1.children ⟨2⟩ = some [] ∧
    ((⟨1⟩ : Entity) ≠ ⟨2⟩ →
      ((EntityTree.new ⟨1⟩).add_child ⟨1⟩ ⟨2⟩).1.children ⟨1⟩ = some ([] ++ [⟨2⟩])) :=
  add_child_known_parent (EntityTree.new ⟨1⟩) ⟨1⟩ ⟨2⟩ [] rfl (by decide)

/-- Tree with the none-sentinel entity 0 registered and no root set. -/
def cexTreeA : EntityTree := EntityTree.default.insert_node ⟨0⟩

/-- Tree with node 1 registered and set as root. -/
def cexTreeB : EntityTree := (EntityTree.default.insert_node ⟨1⟩).set_root ⟨1⟩

/-- Tree with root 1, child 2 under 1 and child 3 under 2. -/
def cexTreeC : EntityTree :=
  ((cexTreeB.add_child ⟨1⟩ ⟨2⟩).1.add_child ⟨2⟩ ⟨3⟩).1

/-- C1 counterexample, three concrete violations of the claim as stated:
    (a) entity 0 has a children entry in cexTreeA, yet add_child(0, 1) fails
    with NoRootEntity instead of succeeding; (b) the root 1 of cexTreeB has a
    children entry and add_child(1, 1) succeeds, yet afterwards 1 is not the
    last element of the children of 1 (the list is empty); (c) in cexTreeC the
    entity 2 already has the children entry [3], yet after add_child(1, 2) its
    entry is the fresh empty list, not the unchanged [3]. -/
theorem add_child_known_parent_cex :
    (cexTreeA.children ⟨0⟩ = some [] ∧
      (cexTreeA.add_child ⟨0⟩ ⟨1⟩).2 = .error .NoRootEntity) ∧
    (cexTreeB.children ⟨1⟩ = some [] ∧
      (cexTreeB.add_child ⟨1⟩ ⟨1⟩).2 = .ok () ∧
      ((cexTreeB.add_child ⟨1⟩ ⟨1⟩).1.children ⟨1⟩).bind List.getLast? = none) ∧
    (cexTreeC.children ⟨2⟩ = some [⟨3⟩] ∧
      (cexTreeC.add_child ⟨1⟩ ⟨2⟩).2 = .ok () ∧
      (cexTreeC.add_child ⟨1⟩ ⟨2⟩).1.children ⟨2⟩ = some []) :=
  ⟨⟨rfl, rfl⟩, ⟨rfl, rfl, rfl⟩, ⟨rfl, rfl, rfl⟩⟩

/-- C4 (amended): delete_entity removes the entity from both tree maps and
    purges every component entry keyed by it, making every component of the
    entity unretrievable and the entity absent from tree queries; it is a
    no-op exactly when the entity is absent from the tree maps and no
    component entry is keyed by it (a never-created entity may still own
    orphaned component entries, which the call removes). -/
theorem delete_entity_purges (m : EntityComponentManager) (e : Entity) :
    (∀ s, (m.delete_entity e).component_store (e, s) = none) ∧
    (∀ ty, (m.delete_entity e).get_component ty e = none) ∧
    (m.delete_entity e).entites.children e = none ∧
    (m.delete_entity e).entites.parent e = none ∧
    (m.delete_entity e).entites.get_children e = .error (.EntityNotFound e .EntityTree) ∧
    (m.delete_entity e).entites.get_parent e = .error (.EntityNotFound e .EntityTree) ∧
    ((∀ s, m.component_store (e, s) = none) →
      m.entites.children e = none → m.entites.parent e = none →
      m.delete_entity e = m) := by
  refine ⟨?_, ?_, ?_, ?_, ?_, ?_, ?_⟩
  · intro s; simp [EntityComponentManager.delete_entity]
  · intro ty
    simp [EntityComponentManager.delete_entity, EntityComponentManager.get_component]
  · simp [EntityComponentManager.delete_entity, EntityTree.remove, fmErase]
  · simp [EntityComponentManager.delete_entity, EntityTree.remove, fmErase]
  · simp [EntityComponentManager.delete_entity, EntityTree.remove, fmErase,
      EntityTree.get_children]
  · simp [EntityComponentManager.delete_entity, EntityTree.remove, fmErase,
      EntityTree.get_parent]
  · intro hs hc hp
    obtain ⟨store, tree, ctr⟩ := m
    obtain ⟨rt, ch, pa⟩ := tree
    simp only [EntityComponentManager.delete_entity, EntityTree.remove, fmErase] at *
    have h1 : (fun k : Entity × String => if k.1 = e then none else store k) = store := by
      funext k
      obtain ⟨k1, k2⟩ := k
      by_cases hk : k1 = e
      · subst hk; simpa using (hs k2).symm
      · simp [hk]
    have h2 : fmErase ch e = ch := by
      funext x
      by_cases hx : x = e
      · subst hx; simpa [fmErase] using hc.symm
      · simp [fmErase, hx]
    have h3 : fmErase pa e = pa := by
      funext x
      by_cases hx : x = e
      · subst hx; simpa [fmErase] using hp.symm
      · simp [fmErase, hx]
    rw [h1, h2, h3]

/-- C4 witness: deleting entity 1 from the default manager is a no-op, via
    the amended no-op clause. -/
theorem delete_entity_purges_witness :
    EntityComponentManager.default.delete_entity ⟨1⟩ = EntityComponentManager.default :=
  (delete_entity_purges EntityComponentManager.default ⟨1⟩).2.2.2.2.2.2
    (fun _ => rfl) rfl rfl

/-- Manager holding an orphaned component: entity 5 was never created, yet a
    component is stored for it (insert_component performs no existence check). -/
def cexMgr : EntityComponentManager :=
  EntityComponentManager.default.insert_component ⟨"i32", 1⟩ ⟨5⟩ 7

/-- C4 counterexample: entity 5 was never created (it is absent from both tree
    maps), yet delete_entity(5) is not a no-op: it removes the orphaned
    component entry keyed by 5, changing the manager state. -/
theorem delete_entity_noop_cex :
    cexMgr.entites.children ⟨5⟩ = none ∧
    cexMgr.entites.parent ⟨5⟩ = none ∧
    cexMgr.component_store (⟨5⟩, "i32") = some ⟨1, 7⟩ ∧
    (cexMgr.delete_entity ⟨5⟩).component_store (⟨5⟩, "i32") = none ∧
    cexMgr.delete_entity ⟨5⟩ ≠ cexMgr := by
  refine ⟨rfl, rfl, rfl, rfl, fun h => ?_⟩
  exact absurd (congrArg (fun mm => mm.component_store (⟨5⟩, "i32")) h) (by decide)


/-- Looking up the inserted key returns the inserted value. -/
theorem fmInsert_self {κ α : Type} [DecidableEq κ] (m : κ → Option α) (k : κ)
    (v : α) : fmInsert m k v k = some v := by
  simp [fmInsert]

/-- Looking up a different key is unchanged by an insertion. -/
theorem fmInsert_ne {κ α : Type} [DecidableEq κ] (m : κ → Option α) (k x : κ)
    (v : α) (h : x ≠ k) : fmInsert m k v x = m x := by
  simp [fmInsert, h]

/-- Entities at or below the current counter are untouched by further
    create_entity calls. -/
theorem createN_preserves (k : Nat) :
    ∀ (m : EntityComponentManager) (x : Entity),
      x.id ≤ m.entity_counter.id → m.entity_counter.id + k < 2 ^ 64 →
      (createN k m).1.entites.children x = m.entites.children x ∧
      (createN k m).1.entites.parent x = m.entites.parent x := by
  induction k with
  | zero => intro m x _ _; exact ⟨rfl, rfl⟩
  | succ n ih =>
    rintro ⟨store, tree, ⟨c⟩⟩ x hx hk
    replace hx : x.id ≤ c := hx
    replace hk : c + (n + 1) < 2 ^ 64 := hk
    have hW : (2 : Nat) ^ 64 = 18446744073709551616 := by norm_num
    rw [hW] at hk
    have hc1 : (c + 1) % 2 ^ 64 = c + 1 := Nat.mod_eq_of_lt (by rw [hW]; omega)
    have hxne : x ≠ (⟨(c + 1) % 2 ^ 64⟩ : Entity) := by
      intro hE
      have h3 := hx
      rw [hE, hc1] at h3
      have h4 : c + 1 ≤ c := h3
      omega
    have hrec := ih ⟨store, tree.insert_node ⟨(c + 1) % 2 ^ 64⟩, ⟨(c + 1) % 2 ^ 64⟩⟩ x
      (by show x.id ≤ (c + 1) % 2 ^ 64; rw [hc1]; omega)
      (by show (c + 1) % 2 ^ 64 + n < 2 ^ 64; rw [hc1, hW]; omega)
    constructor
    · show (createN n ⟨store, tree.insert_node ⟨(c + 1) % 2 ^ 64⟩,
          ⟨(c + 1) % 2 ^ 64⟩⟩).1.entites.children x = tree.children x
      rw [hrec.1]
      show fmInsert tree.children ⟨(c + 1) % 2 ^ 64⟩ [] x = tree.children x
      exact fmInsert_ne _ _ _ _ hxne
    · show (createN n ⟨store, tree.insert_node ⟨(c + 1) % 2 ^ 64⟩,
          ⟨(c + 1) % 2 ^ 64⟩⟩).1.entites.parent x = tree.parent x
      rw [hrec.2]
      show fmInsert tree.parent ⟨(c + 1) % 2 ^ 64⟩ none x = tree.parent x
      exact fmInsert_ne _ _ _ _ hxne

/-- The ids produced by k create_entity calls are the k successors of the
    counter, and each produced id is registered in the tree of the final
    state. -/
theorem createN_ids (k : Nat) :
    ∀ (m : EntityComponentManager), m.entity_counter.id + k < 2 ^ 64 →
      (createN k m).2 = (List.range' (m.entity_counter.id + 1) k).map Entity.mk ∧
      (∀ x : Entity, m.entity_counter.id < x.id → x.id ≤ m.entity_counter.id + k →
        (createN k m).1.entites.children x = some [] ∧
        (createN k m).1.entites.parent x = some none) := by
  induction k with
  | zero =>
    intro m _
    refine ⟨rfl, ?_⟩
    intro x h1 h2
    omega
  | succ n ih =>
    rintro ⟨store, tree, ⟨c⟩⟩ hk
    replace hk : c + (n + 1) < 2 ^ 64 := hk
    have hW : (2 : Nat) ^ 64 = 18446744073709551616 := by norm_num
    rw [hW] at hk
    have hc1 : (c + 1) % 2 ^ 64 = c + 1 := Nat.mod_eq_of_lt (by rw [hW]; omega)
    have hrec := ih ⟨store, tree.insert_node ⟨(c + 1) % 2 ^ 64⟩, ⟨(c + 1) % 2 ^ 64⟩⟩
      (by show (c + 1) % 2 ^ 64 + n < 2 ^ 64; rw [hc1, hW]; omega)
    simp only [EntityComponentManager.entity_counter, hc1] at hrec
    constructor
    · show (⟨(c + 1) % 2 ^ 64⟩ : Entity) ::
          (createN n ⟨store, tree.insert_node ⟨(c + 1) % 2 ^ 64⟩, ⟨(c + 1) % 2 ^ 64⟩⟩).2 =
          (List.range' (c + 1) (n + 1)).map Entity.mk
      simp only [hc1]
      rw [hrec.1, List.range'_succ]
      rfl
    · intro x hx1 hx2
      replace hx1 : c < x.id := hx1
      replace hx2 : x.id ≤ c + (n + 1) := hx2
      by_cases hxc : x.id = c + 1
      · have hxE : x = (⟨(c + 1) % 2 ^ 64⟩ : Entity) := by
          rw [hc1]
          exact congrArg Entity.mk hxc
        have hpres := createN_preserves n
          ⟨store, tree.insert_node ⟨(c + 1) % 2 ^ 64⟩, ⟨(c + 1) % 2 ^ 64⟩⟩ x
          (by show x.id ≤ (c + 1) % 2 ^ 64; rw [hc1]; omega)
          (by show (c + 1) % 2 ^ 64 + n < 2 ^ 64; rw [hc1, hW]; omega)
        constructor
        · show (createN n ⟨store, tree.insert_node ⟨(c + 1) % 2 ^ 64⟩,
              ⟨(c + 1) % 2 ^ 64⟩⟩).1.entites.children x = some []
          rw [hpres.1]
          show fmInsert tree.children ⟨(c + 1) % 2 ^ 64⟩ [] x = some []
          rw [hxE]
          exact fmInsert_self _ _ _
        · show (createN n ⟨store, tree.insert_node ⟨(c + 1) % 2 ^ 64⟩,
              ⟨(c + 1) % 2 ^ 64⟩⟩).1.entites.parent x = some none
          rw [hpres.2]
          show fmInsert tree.parent ⟨(c + 1) % 2 ^ 64⟩ none x = some none
          rw [hxE]
          exact fmInsert_self _ _ _
      · show (createN n ⟨store, tree.insert_node ⟨(c + 1) % 2 ^ 64⟩,
            ⟨(c + 1) % 2 ^ 64⟩⟩).1.entites.children x = some [] ∧
          (createN n ⟨store, tree.insert_node ⟨(c + 1) % 2 ^ 64⟩,
            ⟨(c + 1) % 2 ^ 64⟩⟩).1.entites.parent x = some none
        simp only [hc1]
        exact hrec.2 x (by omega) (by omega)

/-- C9: from a fresh manager, successive create_entity calls return the ids
    1, 2, 3, ...: the sequence is strictly increasing, starts at 1, never
    returns the sentinel 0, and each returned id is registered as a node in
    the internal tree.  Every call is a total function (it cannot fail); the
    hypothesis k < 2 ^ 64 reflects the declared non-goal of counter
    exhaustion at the 64-bit boundary. -/
theorem create_entity_ids (k : Nat) (hk : k < 2 ^ 64) :
    (createN k EntityComponentManager.default).2 = (List.range' 1 k).map Entity.mk ∧
    List.Pairwise (fun a b => a.id < b.id) (createN k EntityComponentManager.default).2 ∧
    (∀ e ∈ (createN k EntityComponentManager.default).2, e.is_none = false) ∧
    (1 ≤ k → ((createN k EntityComponentManager.default).2).head? = some ⟨1⟩) ∧
    (∀ e ∈ (createN k EntityComponentManager.default).2,
      (createN k EntityComponentManager.default).1.entites.children e = some [] ∧
      (createN k EntityComponentManager.default).1.entites.parent e = some none) := by
  have hmain := createN_ids k EntityComponentManager.default
    (by show 0 + k < 2 ^ 64; omega)
  have hids : (createN k EntityComponentManager.default).2 =
      (List.range' 1 k).map Entity.mk := hmain.1
  refine ⟨hids, ?_, ?_, ?_, ?_⟩
  · rw [hids, List.pairwise_map]
    exact List.pairwise_lt_range' 1 k
  · intro e he
    rw [hids] at he
    obtain ⟨i, hi, rfl⟩ := List.mem_map.mp he
    have hmem := List.mem_range'_1.mp hi
    have hne : i ≠ 0 := by omega
    simp [Entity.is_none, hne]
  · intro h1k
    rw [hids]
    cases k with
    | zero => omega
    | succ n => simp [List.range'_succ]
  · intro e he
    rw [hids] at he
    obtain ⟨i, hi, rfl⟩ := List.mem_map.mp he
    have hmem := List.mem_range'_1.mp hi
    exact hmain.2 ⟨i⟩ (by show 0 < i; omega) (by show i ≤ 0 + k; omega)

/-- C9 witness: three creations from the fresh manager. -/
theorem create_entity_ids_witness :
    (createN 3 EntityComponentManager.default).2 = (List.range' 1 3).map Entity.mk ∧
    List.Pairwise (fun a b => a.id < b.id) (createN 3 EntityComponentManager.default).2 ∧
    (∀ e ∈ (createN 3 EntityComponentManager.default).2, e.is_none = false) ∧
    (1 ≤ 3 → ((createN 3 EntityComponentManager.default).2).head? = some ⟨1⟩) ∧
    (∀ e ∈ (createN 3 EntityComponentManager.default).2,
      (createN 3 EntityComponentManager.default).1.entites.children e = some [] ∧
      (createN 3 EntityComponentManager.default).1.entites.parent e = some none) :=
  create_entity_ids 3 (by norm_num)

/-- Finite rose tree of entities: the specification-side shape of a tree,
    used to state the pre-order traversal property. -/
inductive RoseTree where
  | node : Entity → List RoseTree → RoseTree

/-- Root entity of a rose tree. -/
def RoseTree.rootOf : RoseTree → Entity
  | .node e _ => e

/-- Roots of a forest. -/
def rootsOf : List RoseTree → List Entity
  | [] => []
  | c :: cs => c.rootOf :: rootsOf cs

mutual
/-- Pre-order (depth-first, siblings in order) flattening of a rose tree:
    the node first, then the flattening of each child subtree in order. -/
def RoseTree.flatten : RoseTree → List Entity
  | .node e cs => e :: flattenList cs
/-- Pre-order flattening of a forest. -/
def flattenList : List RoseTree → List Entity
  | [] => []
  | c :: cs => c.flatten ++ flattenList cs
end

mutual
/-- The last entity visited in a pre-order walk of the tree. -/
def RoseTree.lastNode : RoseTree → Entity
  | .node e [] => e
  | .node _ (c :: cs) => lastForest c cs
termination_by T => sizeOf T
/-- The last entity visited in a pre-order walk of a nonempty forest. -/
def lastForest : RoseTree → List RoseTree → Entity
  | c, [] => c.lastNode
  | _, c :: cs => lastForest c cs
termination_by c cs => sizeOf c + sizeOf cs
end

mutual
/-- Length of the right spine below the root: the number of parent steps the
    iterator climbs from the last pre-order node back up to the root. -/
def RoseTree.depthR : RoseTree → Nat
  | .node _ [] => 0
  | .node _ (c :: cs) => depthForest c cs
termination_by T => sizeOf T
/-- Right-spine length of a nonempty forest, counted up to the parent of its
    roots. -/
def depthForest : RoseTree → List RoseTree → Nat
  | c, [] => c.depthR + 1
  | _, c :: cs => depthForest c cs
termination_by c cs => sizeOf c + sizeOf cs
end

mutual
/-- The entity tree represents the rose tree: every node has the children
    entry listing exactly the roots of its child subtrees, and every child
    has a parent entry pointing at its parent. -/
def reprTree (t : EntityTree) : RoseTree → Bool
  | .node e cs => decide (t.children e = some (rootsOf cs)) && reprForest t e cs
/-- Forest counterpart of reprTree, with p the parent of the forest roots. -/
def reprForest (t : EntityTree) (p : Entity) : List RoseTree → Bool
  | [] => true
  | c :: cs => (decide (t.parent c.rootOf = some (some p)) && reprTree t c)
      && reprForest t p cs
end

/-- The entity yielded by one next() call on an iterator whose cursor is at x
    (the new cursor is determined by it, see next_of_stepFrom_some). -/
def stepFrom (t : EntityTree) (bf : Nat) (x : Entity) :
    Except IterPanic (Option Entity) :=
  (EntityTreeIterator.next bf ⟨t, some x⟩).map Prod.fst

/-- The successive elements of the list are produced by successive next()
    calls. -/
def ChainSeg (t : EntityTree) (bf : Nat) : List Entity → Prop
  | x :: y :: rest => stepFrom t bf x = .ok (some y) ∧ ChainSeg t bf (y :: rest)
  | _ => True

/-- A node with a nonempty children entry steps to its first child. -/
theorem stepFrom_cons (t : EntityTree) (bf : Nat) (x a : Entity)
    (rest : List Entity) (h : t.children x = some (a :: rest)) :
    stepFrom t bf x = .ok (some a) := by
  simp [stepFrom, EntityTreeIterator.next, h, Except.map]

/-- A node with an empty children entry steps by back-tracking. -/
theorem stepFrom_nil (t : EntityTree) (bf : Nat) (x : Entity)
    (h : t.children x = some []) : stepFrom t bf x = backtrack t bf x := by
  simp only [stepFrom, EntityTreeIterator.next, h]
  cases hb : backtrack t bf x with
  | ok o => cases o <;> simp [Except.map]
  | error p => simp [Except.map]

/-- A cursor with no parent entry of the form Some ends the walk. -/
theorem backtrack_parentless (t : EntityTree) (y : Entity)
    (h : t.parent y = some none) (n : Nat) : backtrack t (n + 1) y = .ok none := by
  simp [backtrack, h]

/-- Back-tracking finds the next sibling when one exists. -/
theorem backtrack_sibling (t : EntityTree) (x y : Entity) (sibs : List Entity)
    (i : Nat) (h1 : t.parent x = some (some y)) (h2 : t.children y = some sibs)
    (h3 : position sibs x = some i) (h4 : i + 1 < sibs.length) (n : Nat) :
    backtrack t (n + 1) x = .ok (some (sibs.get ⟨i + 1, h4⟩)) := by
  simp [backtrack, h1, h2, h3, h4]

/-- Back-tracking climbs to the parent when the node is the last sibling. -/
theorem backtrack_up (t : EntityTree) (x y : Entity) (sibs : List Entity)
    (i : Nat) (h1 : t.parent x = some (some y)) (h2 : t.children y = some sibs)
    (h3 : position sibs x = some i) (h4 : ¬ i + 1 < sibs.length) (n : Nat) :
    backtrack t (n + 1) x = backtrack t n y := by
  simp [backtrack, h1, h2, h3, h4]

/-- position finds index 0 at the head. -/
theorem position_cons_self (x : Entity) (l : List Entity) :
    position (x :: l) x = some 0 := by
  simp [position]

/-- position on an append whose prefix misses the key. -/
theorem position_append_of_not_mem (pre : List Entity) (l : List Entity)
    (x : Entity) (hx : x ∉ pre) :
    position (pre ++ l) x = (position l x).map (pre.length + ·) := by
  induction pre with
  | nil => simp
  | cons a rest ih =>
    have hax : a ≠ x := fun hE => hx (by simp [hE])
    have hxr : x ∉ rest := fun hm => hx (List.mem_cons_of_mem a hm)
    have hstep : position ((a :: rest) ++ l) x = (position (rest ++ l) x).map (· + 1) := by
      show position (a :: (rest ++ l)) x = _
      simp [position, hax]
    rw [hstep, ih hxr]
    cases position l x with
    | none => simp
    | some v =>
      show some (rest.length + v + 1) = some ((a :: rest).length + v)
      simp
      omega

/-- A flattening is never empty: it starts with the root. -/
theorem flatten_ne_nil (T : RoseTree) : T.flatten ≠ [] := by
  cases T with
  | node e cs => simp [RoseTree.flatten]

/-- The first visited entity is the root. -/
theorem flatten_head (T : RoseTree) : T.flatten.head? = some T.rootOf := by
  cases T with
  | node e cs => simp [RoseTree.flatten, RoseTree.rootOf]

/-- A root of a subtree occurs in its flattening. -/
theorem rootOf_mem_flatten (c : RoseTree) : c.rootOf ∈ c.flatten := by
  cases c with
  | node e cs => simp [RoseTree.flatten, RoseTree.rootOf]

/-- Roots of a forest occur in the flattening of the forest. -/
theorem rootsOf_subset (cs : List RoseTree) :
    ∀ x ∈ rootsOf cs, x ∈ flattenList cs := by
  induction cs with
  | nil => simp [rootsOf]
  | cons c rest ih =>
    intro x hx
    simp only [rootsOf, List.mem_cons] at hx
    simp only [flattenList, List.mem_append]
    cases hx with
    | inl h => exact Or.inl (h ▸ rootOf_mem_flatten c)
    | inr h => exact Or.inr (ih x h)

/-- If the flattening of a forest has no duplicates, neither do its roots. -/
theorem rootsOf_nodup (cs : List RoseTree) (h : (flattenList cs).Nodup) :
    (rootsOf cs).Nodup := by
  induction cs with
  | nil => simp [rootsOf]
  | cons c rest ih =>
    simp only [flattenList] at h
    have h2 := h.of_append_right
    have hd := List.disjoint_of_nodup_append h
    simp only [rootsOf, List.nodup_cons]
    exact ⟨fun hm => hd (rootOf_mem_flatten c) (rootsOf_subset rest _ hm), ih h2⟩

mutual
/-- The right spine is shorter than the pre-order walk of the tree. -/
theorem depthR_lt_flatten (T : RoseTree) : T.depthR < T.flatten.length := by
  cases T with
  | node e cs =>
    cases cs with
    | nil => simp [RoseTree.depthR, RoseTree.flatten, flattenList]
    | cons c rest =>
      have h := depthForest_le_flattenList c rest
      simp only [RoseTree.depthR, RoseTree.flatten, List.length_cons]
      omega
termination_by sizeOf T
/-- Forest version of the right-spine bound. -/
theorem depthForest_le_flattenList (c : RoseTree) (cs : List RoseTree) :
    depthForest c cs ≤ (flattenList (c :: cs)).length := by
  cases cs with
  | nil =>
    have h := depthR_lt_flatten c
    simp only [depthForest, flattenList, List.length_append, List.length_nil]
    omega
  | cons c2 rest =>
    have h := depthForest_le_flattenList c2 rest
    simp only [depthForest, flattenList, List.length_append] at h ⊢
    omega
termination_by sizeOf c + sizeOf cs
end

/-- When a step yields an entity, next() moved the cursor to that entity. -/
theorem next_of_stepFrom_some (t : EntityTree) (bf : Nat) (x y : Entity)
    (h : stepFrom t bf x = .ok (some y)) :
    EntityTreeIterator.next bf ⟨t, some x⟩ = .ok (some y, ⟨t, some y⟩) := by
  simp only [stepFrom, EntityTreeIterator.next] at h ⊢
  cases hc : t.children x with
  | none => rw [hc] at h; simp [Except.map] at h
  | some cs =>
    rw [hc] at h
    cases cs with
    | cons a rest =>
      simp [Except.map] at h
      simp [h]
    | nil =>
      cases hb : backtrack t bf x with
      | ok o =>
        rw [hb] at h
        cases o with
        | some s =>
          simp [Except.map] at h
          simp [h]
        | none => simp [Except.map] at h
      | error p => rw [hb] at h; simp [Except.map] at h

/-- When a step yields None, next() left the cursor in place. -/
theorem next_of_stepFrom_none (t : EntityTree) (bf : Nat) (x : Entity)
    (h : stepFrom t bf x = .ok none) :
    EntityTreeIterator.next bf ⟨t, some x⟩ = .ok (none, ⟨t, some x⟩) := by
  simp only [stepFrom, EntityTreeIterator.next] at h ⊢
  cases hc : t.children x with
  | none => rw [hc] at h; simp [Except.map] at h
  | some cs =>
    rw [hc] at h
    cases cs with
    | cons a rest => simp [Except.map] at h
    | nil =>
      cases hb : backtrack t bf x with
      | ok o =>
        rw [hb] at h
        cases o with
        | some s => simp [Except.map] at h
        | none => rfl
      | error p => rw [hb] at h; simp [Except.map] at h

/-- Prepend a step to a chain. -/
theorem chainSeg_cons_of_head (t : EntityTree) (bf : Nat) (x z : Entity)
    (L : List Entity) (h1 : stepFrom t bf x = .ok (some z))
    (hL : L.head? = some z) (h2 : ChainSeg t bf L) : ChainSeg t bf (x :: L) := by
  cases L with
  | nil => simp at hL
  | cons w L2 =>
    have hw : w = z := by simpa using hL
    subst hw
    exact ⟨h1, h2⟩

/-- Concatenate two chains when a step links the last element of the first
    to the head of the second. -/
theorem chainSeg_append (t : EntityTree) (bf : Nat) :
    ∀ (A B : List Entity), ChainSeg t bf A → ChainSeg t bf B →
      (∀ a b, A.getLast? = some a → B.head? = some b →
        stepFrom t bf a = .ok (some b)) →
      ChainSeg t bf (A ++ B) := by
  intro A
  induction A with
  | nil => intro B _ hB _; simpa using hB
  | cons x A2 ih =>
    intro B hA hB hlink
    cases A2 with
    | nil =>
      cases B with
      | nil => exact trivial
      | cons b B2 => exact ⟨hlink x b rfl rfl, hB⟩
    | cons z A3 =>
      refine ⟨hA.1, ?_⟩
      exact ih B hA.2 hB
        (fun a b ha hb => hlink a b (by rw [List.getLast?_cons_cons]; exact ha) hb)

/-- Running the iterator along a chain whose last step yields None collects
    exactly the tail of the chain. -/
theorem iterToList_of_chain (t : EntityTree) (bf : Nat) :
    ∀ (L : List Entity) (x : Entity) (n : Nat),
      ChainSeg t bf (x :: L) →
      (∀ z, (x :: L).getLast? = some z → stepFrom t bf z = .ok none) →
      L.length < n →
      iterToList n bf ⟨t, some x⟩ = some L := by
  intro L
  induction L with
  | nil =>
    intro x n _ hlast hn
    have hstep : stepFrom t bf x = .ok none := hlast x rfl
    have hnext := next_of_stepFrom_none t bf x hstep
    cases n with
    | zero => omega
    | succ n2 => simp [iterToList, hnext]
  | cons z L2 ih =>
    intro x n hchain hlast hn
    have hstep : stepFrom t bf x = .ok (some z) := hchain.1
    have hnext := next_of_stepFrom_some t bf x z hstep
    cases n with
    | zero => omega
    | succ n2 =>
      have hrest : iterToList n2 bf ⟨t, some z⟩ = some L2 := by
        refine ih z n2 hchain.2 ?_ ?_
        · intro w hw
          exact hlast w (by rw [List.getLast?_cons_cons]; exact hw)
        · simp at hn
          omega
      simp [iterToList, hnext, hrest]

/-- lastNode of a leaf. -/
theorem lastNode_nil (e : Entity) : (RoseTree.node e []).lastNode = e := by
  simp [RoseTree.lastNode]

/-- lastNode of an inner node is the last node of its forest. -/
theorem lastNode_cons (e : Entity) (c : RoseTree) (cs : List RoseTree) :
    (RoseTree.node e (c :: cs)).lastNode = lastForest c cs := by
  simp [RoseTree.lastNode]

/-- lastForest of a single tree. -/
theorem lastForest_single (c : RoseTree) : lastForest c [] = c.lastNode := by
  simp [lastForest]

/-- lastForest takes the last sibling. -/
theorem lastForest_cons (c c2 : RoseTree) (cs : List RoseTree) :
    lastForest c (c2 :: cs) = lastForest c2 cs := by
  simp [lastForest]

/-- depthR of a leaf. -/
theorem depthR_nil (e : Entity) : (RoseTree.node e []).depthR = 0 := by
  simp [RoseTree.depthR]

/-- depthR of an inner node. -/
theorem depthR_cons (e : Entity) (c : RoseTree) (cs : List RoseTree) :
    (RoseTree.node e (c :: cs)).depthR = depthForest c cs := by
  simp [RoseTree.depthR]

/-- depthForest of a single tree. -/
theorem depthForest_single (c : RoseTree) : depthForest c [] = c.depthR + 1 := by
  simp [depthForest]

/-- depthForest of a longer forest. -/
theorem depthForest_cons (c c2 : RoseTree) (cs : List RoseTree) :
    depthForest c (c2 :: cs) = depthForest c2 cs := by
  simp [depthForest]

/-- The element after position length-of-prefix in an append. -/
theorem get_append_len_succ (pre : List Entity) (a b : Entity) (l : List Entity)
    (h : pre.length + 1 < (pre ++ a :: b :: l).length) :
    (pre ++ a :: b :: l).get ⟨pre.length + 1, h⟩ = b := by
  induction pre with
  | nil => rfl
  | cons p rest ih =>
    have h2 : rest.length + 1 < (rest ++ a :: b :: l).length := by
      simp only [List.length_append, List.length_cons] at h ⊢
      omega
    show (rest ++ a :: b :: l).get ⟨rest.length + 1, h2⟩ = b
    exact ih h2

/-- sizeOf of a rose tree is positive. -/
theorem rosetree_sizeOf_pos (c : RoseTree) : 0 < sizeOf c := by
  cases c
  simp_arith

/-- sizeOf of a rose forest is positive. -/
theorem roselist_sizeOf_pos (cs : List RoseTree) : 0 < sizeOf cs := by
  cases cs <;> simp_arith

mutual
/-- The pre-order flattening of a represented subtree is a chain of iterator
    steps; its last element is the last pre-order node, which is a leaf, and
    back-tracking from that leaf climbs the right spine up to the root. -/
theorem chainT (t : EntityTree) (bf : Nat) (T : RoseTree)
    (hr : reprTree t T = true) (hnd : T.flatten.Nodup)
    (hbf : T.flatten.length < bf) :
    ChainSeg t bf T.flatten ∧
    T.flatten.getLast? = some T.lastNode ∧
    t.children T.lastNode = some [] ∧
    (∀ n, backtrack t (n + T.depthR) T.lastNode = backtrack t n T.rootOf) := by
  cases T with
  | node y cs =>
    simp only [reprTree, Bool.and_eq_true, decide_eq_true_eq] at hr
    obtain ⟨hcy, hfy⟩ := hr
    cases cs with
    | nil =>
      refine ⟨trivial, ?_, ?_, ?_⟩
      · rw [lastNode_nil]
        rfl
      · rw [lastNode_nil]
        simpa [rootsOf] using hcy
      · intro n
        rw [lastNode_nil, depthR_nil]
        rfl
    | cons c cs2 =>
      have hnd2 : (flattenList (c :: cs2)).Nodup := by
        have hfe : (RoseTree.node y (c :: cs2)).flatten = y :: flattenList (c :: cs2) := rfl
        rw [hfe] at hnd
        exact (List.nodup_cons.mp hnd).2
      have hrootsnd : (rootsOf (c :: cs2)).Nodup := rootsOf_nodup _ hnd2
      have hbf2 : (flattenList (c :: cs2)).length < bf := by
        have hfe : (RoseTree.node y (c :: cs2)).flatten = y :: flattenList (c :: cs2) := rfl
        rw [hfe] at hbf
        simp only [List.length_cons] at hbf
        omega
      have hF := chainF t bf y [] c cs2 (by simpa using hcy) hfy hnd2
        (by simpa using hrootsnd) hbf2
      obtain ⟨F1, F2, F3, F4, F5⟩ := hF
      refine ⟨?_, ?_, ?_, ?_⟩
      · show ChainSeg t bf (y :: flattenList (c :: cs2))
        refine chainSeg_cons_of_head t bf y c.rootOf _ ?_ F2 F1
        exact stepFrom_cons t bf y c.rootOf (rootsOf cs2) (by simpa [rootsOf] using hcy)
      · rw [lastNode_cons]
        show (y :: flattenList (c :: cs2)).getLast? = some (lastForest c cs2)
        cases hL : flattenList (c :: cs2) with
        | nil =>
          simp only [flattenList] at hL
          exact absurd (List.append_eq_nil.mp hL).1 (flatten_ne_nil c)
        | cons w L2 =>
          rw [List.getLast?_cons_cons]
          rw [hL] at F3
          exact F3
      · rw [lastNode_cons]
        exact F4
      · rw [lastNode_cons, depthR_cons]
        exact F5
termination_by sizeOf T
decreasing_by
  subst_vars
  simp_arith

/-- Forest version of chainT: pre is the part of the children entry of y in
    front of the roots of the forest. -/
theorem chainF (t : EntityTree) (bf : Nat) (y : Entity) (pre : List Entity)
    (c : RoseTree) (cs : List RoseTree)
    (hc : t.children y = some (pre ++ rootsOf (c :: cs)))
    (hf : reprForest t y (c :: cs) = true)
    (hnd : (flattenList (c :: cs)).Nodup)
    (hndc : (pre ++ rootsOf (c :: cs)).Nodup)
    (hbf : (flattenList (c :: cs)).length < bf) :
    ChainSeg t bf (flattenList (c :: cs)) ∧
    (flattenList (c :: cs)).head? = some c.rootOf ∧
    (flattenList (c :: cs)).getLast? = some (lastForest c cs) ∧
    t.children (lastForest c cs) = some [] ∧
    (∀ n, backtrack t (n + depthForest c cs) (lastForest c cs) = backtrack t n y) := by
  simp only [reprForest, Bool.and_eq_true, decide_eq_true_eq] at hf
  obtain ⟨⟨hpar, hrT⟩, hfrest⟩ := hf
  have hndL : c.flatten.Nodup := by
    simp only [flattenList] at hnd
    exact hnd.of_append_left
  have hndR : (flattenList cs).Nodup := by
    simp only [flattenList] at hnd
    exact hnd.of_append_right
  have hbfc : c.flatten.length < bf := by
    simp only [flattenList, List.length_append] at hbf
    omega
  have hT := chainT t bf c hrT hndL hbfc
  obtain ⟨T1, T2, T3, T4⟩ := hT
  have hdc : c.depthR + 1 ≤ bf := by
    have := depthR_lt_flatten c
    omega
  have hcne : c.rootOf ∉ pre := by
    have hd := List.disjoint_of_nodup_append hndc
    intro hm
    exact hd hm (by simp [rootsOf])
  cases cs with
  | nil =>
    have hcN : t.children y = some (pre ++ [c.rootOf]) := by simpa [rootsOf] using hc
    have hposN : position (pre ++ [c.rootOf]) c.rootOf = some pre.length := by
      rw [position_append_of_not_mem pre _ _ hcne, position_cons_self]
      simp
    have hlenN : ¬ pre.length + 1 < (pre ++ [c.rootOf]).length := by
      simp
    have hfl : flattenList [c] = c.flatten := by simp [flattenList]
    refine ⟨?_, ?_, ?_, ?_, ?_⟩
    · rw [hfl]; exact T1
    · rw [hfl]; exact flatten_head c
    · rw [hfl, lastForest_single]; exact T2
    · rw [lastForest_single]; exact T3
    · rw [lastForest_single, depthForest_single]
      intro n
      have harith : n + (c.depthR + 1) = (n + 1) + c.depthR := by omega
      rw [harith, T4 (n + 1)]
      exact backtrack_up t c.rootOf y (pre ++ [c.rootOf]) pre.length
        hpar hcN hposN hlenN n
  | cons c2 cs2 =>
    have hcE : t.children y = some (pre ++ c.rootOf :: c2.rootOf :: rootsOf cs2) := by
      simpa [rootsOf] using hc
    have hposE : position (pre ++ c.rootOf :: c2.rootOf :: rootsOf cs2) c.rootOf =
        some pre.length := by
      rw [position_append_of_not_mem pre _ _ hcne, position_cons_self]
      simp
    have hlenE : pre.length + 1 <
        (pre ++ c.rootOf :: c2.rootOf :: rootsOf cs2).length := by
      simp only [List.length_append, List.length_cons]
      omega
    have hc2 : t.children y = some ((pre ++ [c.rootOf]) ++ rootsOf (c2 :: cs2)) := by
      rw [hcE]
      simp [rootsOf]
    have hndc2 : ((pre ++ [c.rootOf]) ++ rootsOf (c2 :: cs2)).Nodup := by
      have h0 : (pre ++ c.rootOf :: c2.rootOf :: rootsOf cs2).Nodup := by
        simpa [rootsOf] using hndc
      rw [List.append_cons] at h0
      exact h0
    have hbf2 : (flattenList (c2 :: cs2)).length < bf := by
      simp only [flattenList, List.length_append] at hbf ⊢
      omega
    have hF := chainF t bf y (pre ++ [c.rootOf]) c2 cs2 hc2 hfrest hndR hndc2 hbf2
    obtain ⟨F1, F2, F3, F4, F5⟩ := hF
    have hcross : stepFrom t bf c.lastNode = .ok (some c2.rootOf) := by
      rw [stepFrom_nil t bf c.lastNode T3]
      have harith : bf = (bf - c.depthR - 1 + 1) + c.depthR := by omega
      rw [harith, T4 (bf - c.depthR - 1 + 1)]
      rw [backtrack_sibling t c.rootOf y (pre ++ c.rootOf :: c2.rootOf :: rootsOf cs2)
        pre.length hpar hcE hposE hlenE (bf - c.depthR - 1)]
      rw [get_append_len_succ pre c.rootOf c2.rootOf (rootsOf cs2) hlenE]
    have hflE : flattenList (c :: c2 :: cs2) =
        c.flatten ++ flattenList (c2 :: cs2) := rfl
    refine ⟨?_, ?_, ?_, ?_, ?_⟩
    · rw [hflE]
      refine chainSeg_append t bf _ _ T1 F1 ?_
      intro a b ha hb
      have ha2 : a = c.lastNode := by
        rw [T2] at ha
        exact (Option.some.inj ha).symm
      have hb2 : b = c2.rootOf := by
        rw [F2] at hb
        exact (Option.some.inj hb).symm
      rw [ha2, hb2]
      exact hcross
    · rw [hflE, List.head?_append, flatten_head c]
      rfl
    · rw [hflE, List.getLast?_append, lastForest_cons]
      cases hL : flattenList (c2 :: cs2) with
      | nil =>
        simp only [flattenList] at hL
        exact absurd (List.append_eq_nil.mp hL).1 (flatten_ne_nil c2)
      | cons w L2 =>
        rw [hL] at F3
        rw [F3]
        rfl
    · rw [lastForest_cons]
      exact F4
    · rw [lastForest_cons, depthForest_cons]
      exact F5
termination_by sizeOf c + sizeOf cs
decreasing_by
· simp_wf
  have h2 := roselist_sizeOf_pos cs
  omega
· subst_vars
  simp_arith
end

/-- Example tree of the specification: root 1, children [2, 3] added under 1
    in that order, and 4 added under 3. -/
def exTree : EntityTree :=
  (((((EntityTree.default.insert_node ⟨1⟩).set_root ⟨1⟩).add_child
    ⟨1⟩ ⟨2⟩).1.add_child ⟨1⟩ ⟨3⟩).1.add_child ⟨3⟩ ⟨4⟩).1

/-- Rose-tree shape of exTree. -/
def exRose : RoseTree :=
  .node ⟨1⟩ [.node ⟨2⟩ [], .node ⟨3⟩ [.node ⟨4⟩ []]]

/-- C2: a fresh iterator over the example tree (root 1, children [2, 3] in
    that order, 4 under 3) yields exactly 1, 2, 3, 4 and then None; in
    general, over any tree that represents a rose tree T of pairwise
    distinct entities whose root carries a no-parent entry, a fresh
    traversal yields exactly the pre-order flattening of T (node first, then
    the child subtrees in insertion order, then the next sibling subtree)
    and then None.  The fuels n (number of next() calls) and bf (sibling
    back-tracking loop) only need to exceed the number of visited nodes. -/
theorem iterator_preorder :
    iterToList 10 10 ⟨exTree, none⟩ = some [⟨1⟩, ⟨2⟩, ⟨3⟩, ⟨4⟩] ∧
    (∀ (t : EntityTree) (T : RoseTree) (bf n : Nat),
      t.root = some T.rootOf →
      t.parent T.rootOf = some none →
      reprTree t T = true →
      T.flatten.Nodup →
      T.flatten.length < bf →
      T.flatten.length < n →
      iterToList n bf ⟨t, none⟩ = some T.flatten) := by
  constructor
  · decide
  · intro t T bf n hroot hpar hrepr hnd hbf hn
    obtain ⟨hch, hlastq, hlastch, hesc⟩ := chainT t bf T hrepr hnd hbf
    have hstepnone : stepFrom t bf T.lastNode = .ok none := by
      rw [stepFrom_nil t bf T.lastNode hlastch]
      have hdep := depthR_lt_flatten T
      have harith : bf = (bf - T.depthR - 1 + 1) + T.depthR := by omega
      rw [harith, hesc (bf - T.depthR - 1 + 1)]
      exact backtrack_parentless t T.rootOf hpar _
    cases n with
    | zero => omega
    | succ n2 =>
      have hfirst : EntityTreeIterator.next bf ⟨t, none⟩ =
          .ok (some T.rootOf, ⟨t, some T.rootOf⟩) := by
        simp [EntityTreeIterator.next, hroot]
      cases T with
      | node y cs =>
        have hrfl : (RoseTree.node y cs).flatten = y :: flattenList cs := rfl
        rw [hrfl] at hlastq hn
        have hrest : iterToList n2 bf ⟨t, some y⟩ = some (flattenList cs) := by
          refine iterToList_of_chain t bf (flattenList cs) y n2 ?_ ?_ ?_
          · rw [hrfl] at hch; exact hch
          · intro z hz
            rw [hlastq] at hz
            obtain rfl := Option.some.inj hz
            exact hstepnone
          · simp only [List.length_cons] at hn
            omega
        rw [hrfl]
        show iterToList (n2 + 1) bf ⟨t, none⟩ = some (y :: flattenList cs)
        simp only [iterToList, hfirst]
        show (iterToList n2 bf ⟨t, some y⟩).map (y :: ·) = some (y :: flattenList cs)
        rw [hrest]
        rfl

/-- C2 witness: the general statement applied to the example tree. -/
theorem iterator_preorder_witness :
    iterToList 12 12 ⟨exTree, none⟩ = some exRose.flatten :=
  iterator_preorder.2 exTree exRose 12 12 rfl rfl (by decide) (by decide)
    (by decide) (by decide)

/-- The back-tracking loop never raises the current-entity panic: that panic
    belongs only to the children lookup on the cursor. -/
theorem backtrack_ne_currentMissing (t : EntityTree) (n : Nat) :
    ∀ (x e : Entity), backtrack t n x ≠ .error (.currentMissing e) := by
  induction n with
  | zero =>
    intro x e h
    simp [backtrack] at h
  | succ n2 ih =>
    intro x e h
    simp only [backtrack] at h
    split at h
    · simp at h
    · simp at h
    · split at h
      · simp at h
      · split at h
        · simp at h
        · split at h
          · simp at h
          · exact ih _ e h

/-- C6: when the cursor entity has no children entry, next() is the explicit
    hard fault (the panic is modelled by the IterPanic error channel, a kind
    distinct from both the recoverable EcsError results and the normal
    Option-None end of iteration, so the entity is not silently skipped);
    and when the cursor entity does have a children entry, that fault cannot
    be produced by the step. -/
theorem iterator_current_missing_panic (it : EntityTreeIterator) (bf : Nat)
    (c : Entity) :
    (it.current = some c → it.tree.children c = none →
      it.next bf = .error (.currentMissing c)) ∧
    (it.current = some c → (it.tree.children c).isSome = true →
      ∀ e, it.next bf ≠ .error (.currentMissing e)) := by
  constructor
  · intro hc hn
    simp [EntityTreeIterator.next, hc, hn]
  · intro hc hs e h
    rw [Option.isSome_iff_exists] at hs
    obtain ⟨cs, hcs⟩ := hs
    simp only [EntityTreeIterator.next, hc, hcs] at h
    cases cs with
    | cons a rest => simp at h
    | nil =>
      cases hb : backtrack it.tree bf c with
      | ok o =>
        rw [hb] at h
        cases o <;> simp at h
      | error p =>
        rw [hb] at h
        simp at h
        exact backtrack_ne_currentMissing it.tree bf c e (by rw [hb, h])

/-- C6 witness: stepping onto entity 9, which has no children entry in the
    single-node tree, raises the explicit panic. -/
theorem iterator_current_missing_panic_witness :
    (⟨cexTreeB, some ⟨9⟩⟩ : EntityTreeIterator).next 5 =
      .error (.currentMissing ⟨9⟩) :=
  (iterator_current_missing_panic ⟨cexTreeB, some ⟨9⟩⟩ 5 ⟨9⟩).1 rfl rfl
